import Mathlib

/-!
Verification of the Round-Robin scheduling simulation core of
`osproject.py` (class `RoundRobin` and class `Process`).

Modelling conventions (shallow embedding):

* All times are measured in integer *ticks*, 1 tick = 0.1 time units.  The
  source advances every clock-like quantity with `round(x + 0.1, 1)`, so every
  time value in the program is an exact multiple of 0.1 and the float
  arithmetic of the source coincides with exact decimal arithmetic; one tick
  is therefore a faithful unit.  The integer `arrival_time` and `burst_time`
  parsed from user input become `10 * n` ticks.  A quantum of `q` time units
  (always a one-decimal value, by `round(tq, 1)`) becomes `10 * q` ticks,
  an integer.
* Python `None` fields of `Process` are `Option Int` with value `none`.
* Python exceptions (`StatisticsError` on `statistics.mean([])`,
  `ZeroDivisionError`, `ValueError` of `math.sqrt` on negatives and of `int()`
  on bad strings, `IndexError`) are modelled by `Option`/result `none`.
* The quantum strategies are computed with exact rational arithmetic; the
  source computes them with `statistics.mean` (exact) followed by Python
  `round` on a float, which on these one-decimal-scale values realises
  round-half-to-even of the exact value; `pyRound` below is that rounding.
* Strings are modelled as `List Char`.
* Tkinter widget manipulation (`pack`, `config`, colors) is presentation-only
  and is not part of the state.
-/

/-- Process control block (`class Process` of osproject.py).  `pid`,
`burst_time`, `arrival_time` are set by the constructor; the five bookkeeping
fields start as `None`.  Times in ticks. -/
structure Process where
  pid : Int
  burst_time : Int
  arrival_time : Int
  admitted_time : Option Int := none
  last_preempted : Option Int := none
  terminated_time : Option Int := none
  waiting_time : Option Int := none
  runtime : Option Int := none
deriving Repr, DecidableEq

/-- The three values of the `time_quantum_method` option menu. -/
inductive TimeQuantumMethod where
  | Arithmetic
  | Geometric
  | Harmonic
deriving Repr, DecidableEq

/-- Python `round` to the nearest integer (round-half-to-even), applied to an
exact rational value.  Specification-level definition (used in theorem
statements; the executable embedding below works with `pyRoundRatio`). -/
def pyRoundQ (x : ℚ) : Int :=
  if x - ⌊x⌋ < 1 / 2 then ⌊x⌋
  else if 1 / 2 < x - ⌊x⌋ then ⌊x⌋ + 1
  else if ⌊x⌋ % 2 = 0 then ⌊x⌋ else ⌊x⌋ + 1

/-- Python `round` to the nearest integer (round-half-to-even) of the exact
rational `a / b`, computed with integer arithmetic (for `b ≠ 0`; the sign
normalisation makes the denominator positive, then `a / b` and `a % b` are
floor division and its nonnegative remainder). -/
def pyRoundRatio (a b : Int) : Int :=
  let a' := if b < 0 then -a else a
  let b' := if b < 0 then -b else b
  let f := a' / b'
  let r := a' % b'
  if 2 * r < b' then f
  else if b' < 2 * r then f + 1
  else if f % 2 = 0 then f else f + 1

/-- Numerator and denominator of `Σ 1/b` over a list of integers, accumulated
without normalisation: `recip_sum l = (n, d)` with `n / d = Σ 1/b` and
`d = Π b` (exact as rationals whenever no element is zero). -/
def recip_sum : List Int → Int × Int
  | [] => (0, 1)
  | b :: bs =>
      let nd := recip_sum bs
      (nd.1 * b + nd.2, nd.2 * b)

/-- Linear search for the integer square root: starting from candidate `k`
with `k² ≤ m`, increase `k` while `(k+1)² ≤ m`.  `fuel` iterations suffice
whenever `m < (k + fuel + 1)²`. -/
def isqrtGo (m : Nat) : Nat → Nat → Nat
  | 0, k => k
  | fuel + 1, k => if (k + 1) * (k + 1) ≤ m then isqrtGo m fuel (k + 1) else k

/-- The integer square root `⌊√m⌋` (executable by kernel reduction). -/
def isqrt (m : Nat) : Nat := isqrtGo m m 0

/-- Round-to-nearest of the real square root of a natural number.  For
`a = isqrt m` we have `a ≤ √m < a + 1`; the rounded value is `a` exactly
when `√m < a + 1/2`, i.e. `m < a² + a + 1/4`, i.e. `m ≤ a² + a`.  (A tie
`√m = a + 1/2` is impossible: `4 m` would be an odd square.) -/
def roundSqrt (m : Nat) : Int :=
  let a := isqrt m
  if m ≤ a * a + a then (a : Int) else (a : Int) + 1

/-- Burst time of a process in the source's own units (the source stores
`burst_time` in time units; our `Process` stores ticks). -/
def burst_units (p : Process) : ℚ := (p.burst_time : ℚ) / 10

/-- `RoundRobin.get_time_quantum` of osproject.py, over a given ready queue
(`self.tasks`) and method (`self.time_quantum_method`).  Returns the quantum
in ticks: the source returns `round(tq, 1)` time units, and `round(tq, 1) * 10
= pyRound (10 * tq)` ticks.
`none` models the exceptions of the source:
`statistics.mean` on an empty list raises `StatisticsError`;
`math.sqrt` on a negative sum raises `ValueError`;
`1.0 / burst` with a zero burst and `1.0 / mean` with a zero mean raise
`ZeroDivisionError`. -/
def get_time_quantum (method : TimeQuantumMethod) (tasks : List Process) :
    Option Int :=
  match method with
  | .Arithmetic =>
      -- tq = mean(burst units); round(tq, 1) units = pyRound(10 * tq) ticks
      --    = pyRound((Σ burst ticks) / n) ticks.
      if tasks.isEmpty then none
      else some (pyRoundRatio (tasks.map (fun p => p.burst_time)).sum
        (tasks.length : Int))
  | .Geometric =>
      -- tq = sqrt(S) with S the sum in units; round(tq, 1) units
      --    = round(10 * sqrt(S)) = round(sqrt(100 * S)) = round(sqrt(10 * n))
      -- ticks, where n = 10 * S is the sum of the burst times in ticks.
      let n : Int := (tasks.map (fun p => p.burst_time)).sum
      if n < 0 then none
      else some (roundSqrt (10 * n).toNat)
  | .Harmonic =>
      -- tq = 1 / mean(1/u over burst units u); round(tq, 1) units
      --    = pyRound(10 * n / Σ (1/u)) = pyRound(n / Σ (1/b over burst
      -- ticks b)) = pyRound(n * d / m) ticks, with (m, d) = recip_sum of the
      -- burst ticks.
      if tasks.isEmpty then none
      else if tasks.any (fun p => p.burst_time = 0) then none
      else
        let nd := recip_sum (tasks.map (fun p => p.burst_time))
        if nd.1 = 0 then none
        else some (pyRoundRatio ((tasks.length : Int) * nd.2) nd.1)

/-- The field updates performed on an admitted task inside the `while` loop of
`RoundRobin.get_new_tasks`, in source order. -/
def admit_task (time_elapsed : Int) (p : Process) : Process :=
  { p with
    last_preempted := some time_elapsed
    waiting_time := some (time_elapsed - p.arrival_time)
    admitted_time := some time_elapsed
    runtime := some 0 }

/-- `RoundRobin.get_new_tasks` of osproject.py: while the head of `new_tasks`
has `arrival_time <= time_elapsed`, pop it, set its bookkeeping fields and
append it to `tasks`.  Returns the updated `(tasks, new_tasks)`. -/
def get_new_tasks (time_elapsed : Int) :
    List Process → List Process → List Process × List Process
  | tasks, [] => (tasks, [])
  | tasks, p :: ps =>
      if p.arrival_time ≤ time_elapsed then
        get_new_tasks time_elapsed (tasks ++ [admit_task time_elapsed p]) ps
      else (tasks, p :: ps)

/-- The mutable simulation state used by `RoundRobin.run_animation`:
the pending arrivals `self.new_tasks`, the ready queue `self.tasks`, the
terminated set `self.terminated_tasks`, and the loop variables `time_elapsed`
and `time_quantum` (both in ticks). -/
structure SimState where
  new_tasks : List Process
  tasks : List Process
  terminated_tasks : List Process
  time_elapsed : Int
  time_quantum : Int
deriving Repr, DecidableEq

/-- The inner `while True` of `RoundRobin.run_animation` (lines 548-582):
runs the popped `task` in 0.1-unit micro-steps with local counter `runtime`,
until the process terminates (`task.runtime == task.burst_time`, checked
first) or is preempted (`runtime == time_quantum`).  Each micro-step
increments the local counter and `task.runtime`, admits new arrivals at the
*current* clock, then advances the clock.  `fuel` bounds the number of
iterations; `none` models the loop not terminating within `fuel` steps. -/
def run_one_process (q : Int) : Nat → Process → Int → SimState → Option SimState
  | 0, _, _, _ => none
  | fuel + 1, task, runtime, s =>
      if task.runtime = some task.burst_time then
        some { s with terminated_tasks := s.terminated_tasks ++
          [{ task with
              terminated_time := some s.time_elapsed
              last_preempted := some s.time_elapsed }] }
      else if runtime = q then
        some { s with tasks := s.tasks ++
          [{ task with last_preempted := some s.time_elapsed }] }
      else
        let task' := { task with runtime := some (task.runtime.getD 0 + 1) }
        let tp := get_new_tasks s.time_elapsed s.tasks s.new_tasks
        run_one_process q fuel task' (runtime + 1)
          { s with
              tasks := tp.1
              new_tasks := tp.2
              time_elapsed := s.time_elapsed + 1 }

/-- One iteration of the outer `while True` loop of
`RoundRobin.run_animation` (lines 524-586), without the stop-bit exit (a
stopped run is simply a run of fewer iterations):
admit arrivals; if the ready queue is empty, or its head has not arrived yet,
stay idle (admit again and advance the clock by one tick); otherwise compute
the quantum over the ready queue (before the pop), pop the head, add
`time_elapsed - last_preempted` to its waiting time, and run it with
`run_one_process`. -/
def run_animation_step (fuel : Nat) (method : TimeQuantumMethod)
    (s : SimState) : Option SimState :=
  let tp := get_new_tasks s.time_elapsed s.tasks s.new_tasks
  let s1 : SimState := { s with tasks := tp.1, new_tasks := tp.2 }
  match tp.1 with
  | [] =>
      let tp2 := get_new_tasks s1.time_elapsed s1.tasks s1.new_tasks
      some { s1 with
        tasks := tp2.1
        new_tasks := tp2.2
        time_elapsed := s1.time_elapsed + 1 }
  | task :: rest =>
      if s1.time_elapsed < task.arrival_time then
        let tp2 := get_new_tasks s1.time_elapsed s1.tasks s1.new_tasks
        some { s1 with
          tasks := tp2.1
          new_tasks := tp2.2
          time_elapsed := s1.time_elapsed + 1 }
      else
        match get_time_quantum method (task :: rest) with
        | none => none
        | some q =>
            let w : Int := task.waiting_time.getD 0 +
              (s1.time_elapsed - task.last_preempted.getD 0)
            let task' := { task with waiting_time := some w }
            run_one_process q fuel task' 0
              { s1 with tasks := rest, time_quantum := q }

/-- `n` iterations of the outer loop of `run_animation`. -/
def run_animation (fuel : Nat) (method : TimeQuantumMethod) :
    Nat → SimState → Option SimState
  | 0, s => some s
  | n + 1, s =>
      match run_animation_step fuel method s with
      | none => none
      | some s' => run_animation fuel method n s'

/-- Stable insertion of a process into a list sorted by arrival time:
the new element goes before the first element that is not strictly
earlier.  Together with `sort_by_arrival` this implements the stable sort
`sorted(self.tasks)` of `finalize_tasks_list` (Python's `sorted` is stable
and compares labels with `Label.__lt__`, i.e. by `arrival_time`). -/
def insert_by_arrival (p : Process) : List Process → List Process
  | [] => [p]
  | q :: qs =>
      if q.arrival_time < p.arrival_time then q :: insert_by_arrival p qs
      else p :: q :: qs

/-- Stable sort by arrival time (see `insert_by_arrival`). -/
def sort_by_arrival : List Process → List Process
  | [] => []
  | p :: ps => insert_by_arrival p (sort_by_arrival ps)

/-- `RoundRobin.finalize_tasks_list` composed with the initial values of the
loop variables of `run_animation`: the submitted tasks are sorted by arrival
time into `new_tasks`, the ready queue and terminated set start empty,
`time_elapsed = 0.0` and `time_quantum = 1.0` (10 ticks). -/
def finalize_tasks_list (tasks : List Process) : SimState :=
  { new_tasks := sort_by_arrival tasks
    tasks := []
    terminated_tasks := []
    time_elapsed := 0
    time_quantum := 10 }

/-- `RoundRobin.calculate_metrics` of osproject.py: the three
`statistics.mean` calls over the terminated set, as exact rationals (in
ticks).  `none` models the `StatisticsError` raised by `statistics.mean` on
an empty list. -/
def calculate_metrics (terminated_tasks : List Process) :
    Option (ℚ × ℚ × ℚ) :=
  if terminated_tasks.isEmpty then none
  else
    let n : ℚ := (terminated_tasks.length : ℚ)
    let throughput :=
      (terminated_tasks.map (fun p => ((p.terminated_time.getD 0 : Int) : ℚ))).sum / n
    let avg_turnaround_time :=
      (terminated_tasks.map (fun p =>
        ((p.terminated_time.getD 0 - p.admitted_time.getD 0 : Int) : ℚ))).sum / n
    let avg_waiting_time :=
      (terminated_tasks.map (fun p => ((p.waiting_time.getD 0 : Int) : ℚ))).sum / n
    some (throughput, avg_turnaround_time, avg_waiting_time)

/-- Arithmetic mean, as the spec words it ("arithmetic mean of the burst
times", "mean of terminated_time"): sum divided by length. -/
def arithmeticMean (l : List ℚ) : ℚ := l.sum / (l.length : ℚ)

/-- Harmonic-strategy value as the spec words it: "the reciprocal of the mean
of the reciprocals" of the burst times. -/
def harmonicSpecValue (l : List ℚ) : ℚ := 1 / arithmeticMean (l.map (fun x => 1 / x))

/-- The whitespace characters stripped by Python's `str.strip` and ignored
around the number by `int()`. -/
def isSpaceChar (c : Char) : Bool := c == ' ' || c == '\t' || c == '\n' || c == '\r'

/-- Python `str.strip()` over a string modelled as a character list. -/
def stripChars (l : List Char) : List Char :=
  ((l.dropWhile isSpaceChar).reverse.dropWhile isSpaceChar).reverse

/-- The digit scan of Python `int(s)` after the first digit: decimal digits,
with single underscores allowed between two digits.  `acc` is the value read
so far. -/
def parseDigits : Nat → List Char → Option Nat
  | acc, [] => some acc
  | acc, '_' :: c :: cs =>
      if c.isDigit then parseDigits (acc * 10 + (c.toNat - 48)) cs else none
  | _, ['_'] => none
  | acc, c :: cs =>
      if c.isDigit then parseDigits (acc * 10 + (c.toNat - 48)) cs else none

/-- The digit part of Python `int(s)`: a nonempty digit sequence (see
`parseDigits`). -/
def parseNat (cs : List Char) : Option Nat :=
  match cs with
  | [] => none
  | c :: rest => if c.isDigit then parseDigits (c.toNat - 48) rest else none

/-- Python `int(s)` on a string modelled as a character list: surrounding
whitespace ignored, optional sign, nonempty digit sequence.  `none` models
the `ValueError` on malformed input. -/
def parseInt (cs : List Char) : Option Int :=
  let t := stripChars cs
  match t with
  | '-' :: rest => (parseNat rest).map (fun n => -(n : Int))
  | '+' :: rest => (parseNat rest).map (fun n => (n : Int))
  | _ => (parseNat t).map (fun n => (n : Int))

/-- Splitting a character list at every `';'` (each occurrence separates two
fields; no occurrence gives the one-element list). -/
def splitSemi : List Char → List (List Char)
  | [] => [[]]
  | c :: cs =>
      if c = ';' then [] :: splitSemi cs
      else
        match splitSemi cs with
        | f :: fs => (c :: f) :: fs
        | [] => [[c]]

/-- `RoundRobin.make_task` of osproject.py: split the input text with the
regex `" *; *"` and build
`Process(pid=int(attr[0]), arrival_time=int(attr[1]), burst_time=int(attr[2]))`.
`none` models the `except` branch (an `IndexError` when there are fewer than
three fields, a `ValueError` when an `int()` call fails).  Splitting on `';'`
alone is equivalent to the source's regex split because `int()` itself
ignores the whitespace around each field.  The parsed integer times (in time
units) are scaled to ticks. -/
def make_task (text : List Char) : Option Process :=
  match splitSemi text with
  | a :: b :: c :: _ =>
      match parseInt a, parseInt b, parseInt c with
      | some pid, some arrival, some burst =>
          some { pid := pid, burst_time := 10 * burst, arrival_time := 10 * arrival }
      | _, _, _ => none
  | _ => none

/-- `RoundRobin.add_task` of osproject.py: strip the submitted text and, if
it is non-empty, parse it with `make_task` and append the new task to
`self.tasks`.  The `Bool` records whether an error was reported
(`msg.showerror` followed by `raise` inside `make_task`); when it is raised
the `self.tasks.append` line is never reached, so the task list is returned
unchanged. -/
def add_task (tasks : List Process) (text : List Char) : List Process × Bool :=
  let task_text := stripChars text
  if task_text.length > 0 then
    match make_task task_text with
    | some p => (tasks ++ [p], false)
    | none => (tasks, true)
  else (tasks, false)

/-- A process still in `new_tasks` (pending): exactly as constructed by
`make_task` — all bookkeeping fields are `None` — with a nonnegative burst
time. -/
def ProcPending (p : Process) : Prop :=
  p.admitted_time = none ∧ p.last_preempted = none ∧ p.terminated_time = none ∧
  p.waiting_time = none ∧ p.runtime = none ∧ 0 ≤ p.burst_time

/-- A process sitting in the ready queue at clock `t`: its bookkeeping fields
are set, it is not terminated, it was admitted after arriving and not later
than `t`, its runtime is between `0` and its burst time, and its waiting
time accounts for all queue time since arrival:
`waiting = last_preempted - arrival - runtime`. -/
def ProcReady (t : Int) (p : Process) : Prop :=
  p.admitted_time.isSome ∧ p.last_preempted.isSome ∧ p.waiting_time.isSome ∧
  p.runtime.isSome ∧ p.terminated_time = none ∧
  p.arrival_time ≤ p.admitted_time.getD 0 ∧ p.admitted_time.getD 0 ≤ t ∧
  p.last_preempted.getD 0 ≤ t ∧ 0 ≤ p.runtime.getD 0 ∧
  p.runtime.getD 0 ≤ p.burst_time ∧
  p.waiting_time.getD 0 = p.last_preempted.getD 0 - p.arrival_time - p.runtime.getD 0

/-- The task being executed by the inner loop of `run_animation` at clock
`t`: like `ProcReady`, with the waiting time already charged up to the
current dispatch: `waiting = t - arrival - runtime`. -/
def ProcRunning (t : Int) (p : Process) : Prop :=
  p.admitted_time.isSome ∧ p.last_preempted.isSome ∧ p.waiting_time.isSome ∧
  p.runtime.isSome ∧ p.terminated_time = none ∧
  p.arrival_time ≤ p.admitted_time.getD 0 ∧ p.admitted_time.getD 0 ≤ t ∧
  0 ≤ p.runtime.getD 0 ∧ p.runtime.getD 0 ≤ p.burst_time ∧
  p.waiting_time.getD 0 = t - p.arrival_time - p.runtime.getD 0

/-- A terminated process: `runtime == burst_time`, the termination time is
set and is not earlier than the admission time, which is not earlier than the
arrival time, and the waiting time accounts for all non-running time:
`waiting = terminated - arrival - burst`. -/
def ProcTerm (p : Process) : Prop :=
  p.admitted_time.isSome ∧ p.last_preempted.isSome ∧ p.waiting_time.isSome ∧
  p.terminated_time.isSome ∧ p.runtime = some p.burst_time ∧
  p.arrival_time ≤ p.admitted_time.getD 0 ∧
  p.admitted_time.getD 0 ≤ p.terminated_time.getD 0 ∧
  p.waiting_time.getD 0 = p.terminated_time.getD 0 - p.arrival_time - p.burst_time

/-- The invariant of the simulation state maintained by `run_animation`. -/
def SimInv (s : SimState) : Prop :=
  (∀ p ∈ s.new_tasks, ProcPending p) ∧
  (∀ p ∈ s.tasks, ProcReady s.time_elapsed p) ∧
  (∀ p ∈ s.terminated_tasks, ProcTerm p)

instance : DecidablePred ProcPending := fun p => by
  unfold ProcPending; infer_instance

instance (t : Int) : DecidablePred (ProcReady t) := fun p => by
  unfold ProcReady; infer_instance

instance (t : Int) : DecidablePred (ProcRunning t) := fun p => by
  unfold ProcRunning; infer_instance

instance : DecidablePred ProcTerm := fun p => by
  unfold ProcTerm; infer_instance

instance (s : SimState) : Decidable (SimInv s) := by
  unfold SimInv; infer_instance


/-! Concrete inputs used by the witness and counterexample theorems. -/

/-- A freshly submitted process with burst time 4.0 units (40 ticks). -/
def q4 : Process := { pid := 1, burst_time := 40, arrival_time := 0 }

/-- A freshly submitted process with burst time 6.0 units (60 ticks). -/
def q6 : Process := { pid := 2, burst_time := 60, arrival_time := 0 }

/-- A freshly submitted process with burst time 8.0 units (80 ticks). -/
def q8 : Process := { pid := 3, burst_time := 80, arrival_time := 0 }

/-- The scenario process P1 (arrival 0, burst 5.0 units = 50 ticks). -/
def scenP1 : Process := { pid := 1, burst_time := 50, arrival_time := 0 }

/-- The scenario process P2 (arrival 1.0 units = 10 ticks, burst 3.0 units =
30 ticks). -/
def scenP2 : Process := { pid := 2, burst_time := 30, arrival_time := 10 }

/-- An already admitted process with burst 50 ticks sitting at the head of
the ready queue. -/
def cexA : Process :=
  { pid := 1, burst_time := 50, arrival_time := 0, admitted_time := some 0,
    last_preempted := some 0, terminated_time := none, waiting_time := some 0,
    runtime := some 0 }

/-- An already admitted process with burst 30 ticks sitting behind `cexA` in
the ready queue. -/
def cexB : Process :=
  { pid := 2, burst_time := 30, arrival_time := 0, admitted_time := some 0,
    last_preempted := some 0, terminated_time := none, waiting_time := some 0,
    runtime := some 0 }

/-- A simulation state about to dispatch `cexA` with `cexB` waiting. -/
def cexState : SimState :=
  { new_tasks := [], tasks := [cexA, cexB], terminated_tasks := [],
    time_elapsed := 0, time_quantum := 10 }

/-- A pending process used by witnesses (burst 1.0 units = 10 ticks). -/
def wPend : Process := { pid := 7, burst_time := 10, arrival_time := 0 }

/-- A terminated process used by the metrics witness. -/
def wTerm : Process :=
  { pid := 7, burst_time := 10, arrival_time := 0, admitted_time := some 0,
    last_preempted := some 10, terminated_time := some 10,
    waiting_time := some 0, runtime := some 10 }

/-- The submission text `"1 ; 2 ; 3 ; 4"` (four fields) as a character
list. -/
def c8input : List Char :=
  ['1', ' ', ';', ' ', '2', ' ', ';', ' ', '3', ' ', ';', ' ', '4']

/-- The malformed submission text `"1;x;3"` (non-numeric second field) as a
character list. -/
def c8bad : List Char := ['1', ';', 'x', ';', '3']

/-! Helper lemmas about admission (`get_new_tasks`). -/

theorem get_new_tasks_eq (t : Int) (pending : List Process) :
    ∀ tasks, get_new_tasks t tasks pending =
      (tasks ++ (pending.takeWhile (fun p => p.arrival_time ≤ t)).map (admit_task t),
       pending.dropWhile (fun p => p.arrival_time ≤ t)) := by
  induction pending with
  | nil => intro tasks; simp [get_new_tasks]
  | cons p ps ih =>
      intro tasks
      by_cases h : p.arrival_time ≤ t
      · simp [get_new_tasks, h, ih, List.takeWhile_cons, List.dropWhile_cons]
      · simp [get_new_tasks, h, List.takeWhile_cons, List.dropWhile_cons]

theorem dropWhile_head_false {α : Type} (p : α → Bool) :
    ∀ (l : List α) (x : α) (xs : List α), l.dropWhile p = x :: xs → p x = false := by
  intro l
  induction l with
  | nil => intro x xs h; simp [List.dropWhile] at h
  | cons a as ih =>
      intro x xs h
      rw [List.dropWhile_cons] at h
      by_cases hp : p a = true
      · exact ih x xs (by simpa [hp] using h)
      · rw [if_neg hp] at h
        injection h with h1 h2
        subst h1
        simpa using hp

theorem get_new_tasks_idem (t : Int) (tasks pending : List Process) :
    get_new_tasks t (get_new_tasks t tasks pending).1
      (get_new_tasks t tasks pending).2 = get_new_tasks t tasks pending := by
  rw [get_new_tasks_eq t pending tasks]
  cases hd : pending.dropWhile (fun p => p.arrival_time ≤ t) with
  | nil => simp [get_new_tasks]
  | cons x xs =>
      have hx := dropWhile_head_false _ pending x xs hd
      have hx' : ¬ x.arrival_time ≤ t := by simpa using hx
      simp [get_new_tasks, hx']

theorem admit_task_ready {t : Int} {p : Process} (hp : ProcPending p)
    (h : p.arrival_time ≤ t) : ProcReady t (admit_task t p) := by
  obtain ⟨h1, h2, h3, h4, h5, h6⟩ := hp
  refine ⟨?_, ?_, ?_, ?_, ?_, ?_, ?_, ?_, ?_, ?_, ?_⟩ <;>
    simp [admit_task, h, h3, h6]

theorem get_new_tasks_inv {t : Int} {tasks pending : List Process}
    (hT : ∀ p ∈ tasks, ProcReady t p) (hP : ∀ p ∈ pending, ProcPending p) :
    (∀ p ∈ (get_new_tasks t tasks pending).1, ProcReady t p) ∧
    (∀ p ∈ (get_new_tasks t tasks pending).2, ProcPending p) := by
  rw [get_new_tasks_eq]
  constructor
  · intro p hp
    rcases List.mem_append.1 hp with h | h
    · exact hT p h
    · obtain ⟨q, hq, rfl⟩ := List.mem_map.1 h
      have hqle : q.arrival_time ≤ t := by simpa using List.mem_takeWhile_imp hq
      exact admit_task_ready (hP q ((List.takeWhile_sublist _).subset hq)) hqle
  · intro p hp
    exact hP p ((List.dropWhile_sublist _).subset hp)

theorem procReady_mono {t t' : Int} (h : t ≤ t') {p : Process}
    (hp : ProcReady t p) : ProcReady t' p := by
  obtain ⟨h1, h2, h3, h4, h5, h6, h7, h8, h9, h10, h11⟩ := hp
  exact ⟨h1, h2, h3, h4, h5, h6, le_trans h7 h, le_trans h8 h, h9, h10, h11⟩

theorem sorted_takeWhile_dropWhile (t : Int) :
    ∀ pending : List Process,
      pending.Pairwise (fun a b => a.arrival_time ≤ b.arrival_time) →
      pending.takeWhile (fun p => p.arrival_time ≤ t) =
        pending.filter (fun p => p.arrival_time ≤ t) ∧
      pending.dropWhile (fun p => p.arrival_time ≤ t) =
        pending.filter (fun p => ¬ p.arrival_time ≤ t) := by
  intro pending
  induction pending with
  | nil => intro _; simp
  | cons p ps ih =>
      intro hPW
      obtain ⟨hhead, htail⟩ := List.pairwise_cons.1 hPW
      obtain ⟨ih1, ih2⟩ := ih htail
      by_cases h : p.arrival_time ≤ t
      · constructor
        · simp [List.takeWhile_cons, List.filter_cons, h, ih1]
        · simp [List.dropWhile_cons, List.filter_cons, h, ih2]
      · constructor
        · rw [List.takeWhile_cons, List.filter_cons]
          simp only [decide_eq_true_eq, h, if_false, decide_eq_false h]
          symm
          rw [List.filter_eq_nil_iff]
          intro q hq
          have : p.arrival_time ≤ q.arrival_time := hhead q hq
          simp only [decide_eq_true_eq]
          omega
        · rw [List.dropWhile_cons, List.filter_cons]
          rw [if_neg (by simpa using h), if_pos (by simpa using h)]
          congr 1
          symm
          rw [List.filter_eq_self]
          intro q hq
          have : p.arrival_time ≤ q.arrival_time := hhead q hq
          simp only [decide_eq_true_eq]
          omega

theorem run_one_process_quantum {q : Int} :
    ∀ {fuel : Nat} {task : Process} {r : Int} {s s' : SimState},
      run_one_process q fuel task r s = some s' →
      s'.time_quantum = s.time_quantum := by
  intro fuel
  induction fuel with
  | zero => intro task r s s' h; simp [run_one_process] at h
  | succ n ih =>
      intro task r s s' h
      rw [run_one_process] at h
      split_ifs at h with h1 h2
      · injection h with hh; subst hh; rfl
      · injection h with hh; subst hh; rfl
      · simp only [] at h
        have hrec := ih h
        exact hrec

theorem run_one_process_inv {q : Int} :
    ∀ {fuel : Nat} {task : Process} {r : Int} {s s' : SimState},
      run_one_process q fuel task r s = some s' →
      ProcRunning s.time_elapsed task →
      (∀ p ∈ s.tasks, ProcReady s.time_elapsed p) →
      (∀ p ∈ s.new_tasks, ProcPending p) →
      (∀ p ∈ s.terminated_tasks, ProcTerm p) →
      SimInv s' ∧ s.time_elapsed ≤ s'.time_elapsed ∧
      ∃ l, s'.terminated_tasks = s.terminated_tasks ++ l := by
  intro fuel
  induction fuel with
  | zero => intro task r s s' h _ _ _ _; simp [run_one_process] at h
  | succ n ih =>
      intro task r s s' h hrun hready hpend hterm
      obtain ⟨a1, a2, a3, a4, a5, a6, a7, a8, a9, a10⟩ := hrun
      rw [run_one_process] at h
      split_ifs at h with h1 h2
      · -- termination branch
        injection h with hh
        subst hh
        refine ⟨⟨hpend, hready, ?_⟩, le_refl _, ⟨_, rfl⟩⟩
        intro p hp
        rcases List.mem_append.1 hp with hmem | hmem
        · exact hterm p hmem
        · simp only [List.mem_singleton] at hmem
          subst hmem
          have hrt : task.runtime.getD 0 = task.burst_time := by
            rw [h1]; rfl
          exact ⟨a1, by simp, a3, by simp, by simpa using h1, a6, by simpa using a7,
            by simp; omega⟩
      · -- preemption branch
        injection h with hh
        subst hh
        refine ⟨⟨hpend, ?_, hterm⟩, le_refl _, ⟨[], (List.append_nil _).symm⟩⟩
        intro p hp
        rcases List.mem_append.1 hp with hmem | hmem
        · exact hready p hmem
        · simp only [List.mem_singleton] at hmem
          subst hmem
          exact ⟨a1, by simp, a3, a4, a5, a6, a7, by simp, a8, a9, by simp; omega⟩
      · -- micro-step branch
        simp only [] at h
        obtain ⟨g1, g2⟩ := get_new_tasks_inv hready hpend
        obtain ⟨rt, hrt⟩ := Option.isSome_iff_exists.1 a4
        have hrtD : task.runtime.getD 0 = rt := by simp [hrt]
        have hlt : rt < task.burst_time := by
          rcases lt_or_eq_of_le (hrtD ▸ a9) with hl | he
          · exact hl
          · exact absurd (by rw [hrt, he]) h1
        have hrun2 : ProcRunning (s.time_elapsed + 1)
            { task with runtime := some (task.runtime.getD 0 + 1) } := by
          refine ⟨a1, a2, a3, by simp, a5, a6, ?_, ?_, ?_, ?_⟩
          · show task.admitted_time.getD 0 ≤ s.time_elapsed + 1
            omega
          · show (0 : Int) ≤ (some (task.runtime.getD 0 + 1)).getD 0
            simp only [Option.getD_some]
            omega
          · show (some (task.runtime.getD 0 + 1)).getD 0 ≤ task.burst_time
            simp only [Option.getD_some]
            omega
          · show task.waiting_time.getD 0 = (s.time_elapsed + 1) -
              task.arrival_time - (some (task.runtime.getD 0 + 1)).getD 0
            simp only [Option.getD_some]
            omega
        have := ih h hrun2
          (fun p hp => procReady_mono
            (show s.time_elapsed ≤ s.time_elapsed + 1 by omega) (g1 p hp))
          g2
          hterm
        obtain ⟨hi, ht, l, hl⟩ := this
        have ht' : s.time_elapsed + 1 ≤ s'.time_elapsed := ht
        have hl' : s'.terminated_tasks = s.terminated_tasks ++ l := hl
        exact ⟨hi, by omega, ⟨l, hl'⟩⟩

theorem run_animation_step_inv {fuel : Nat} {m : TimeQuantumMethod}
    {s s' : SimState} (h : run_animation_step fuel m s = some s')
    (hI : SimInv s) :
    SimInv s' ∧ s.time_elapsed ≤ s'.time_elapsed ∧
    ∃ l, s'.terminated_tasks = s.terminated_tasks ++ l := by
  obtain ⟨hpend, hready, hterm⟩ := hI
  obtain ⟨g1, g2⟩ := get_new_tasks_inv (t := s.time_elapsed) hready hpend
  have hidem := get_new_tasks_idem s.time_elapsed s.tasks s.new_tasks
  rw [run_animation_step] at h
  simp only [] at h
  rcases htp : (get_new_tasks s.time_elapsed s.tasks s.new_tasks).1 with _ | ⟨task, rest⟩
  · -- ready queue empty after admission: CPU idle
    rw [htp] at hidem
    simp only [htp, hidem] at h
    injection h with hh
    subst hh
    refine ⟨⟨g2, ?_, hterm⟩, show s.time_elapsed ≤ s.time_elapsed + 1 by omega,
      ⟨[], (List.append_nil _).symm⟩⟩
    intro p hp
    have hp' : p ∈ ([] : List Process) := hp
    simp at hp'
  · -- ready queue non-empty
    rw [htp] at hidem
    simp only [htp, hidem] at h
    by_cases harr : s.time_elapsed < task.arrival_time
    · -- head not arrived yet: CPU idle
      rw [if_pos harr] at h
      injection h with hh
      subst hh
      refine ⟨⟨g2, ?_, hterm⟩, show s.time_elapsed ≤ s.time_elapsed + 1 by omega,
        ⟨[], (List.append_nil _).symm⟩⟩
      intro p hp
      have hp' : p ∈ task :: rest := hp
      refine procReady_mono (show s.time_elapsed ≤ s.time_elapsed + 1 by omega)
        (g1 p ?_)
      rw [htp]
      exact hp'
    · -- dispatch
      rw [if_neg harr] at h
      rcases hq : get_time_quantum m (task :: rest) with _ | q
      · rw [hq] at h; cases h
      · rw [hq] at h
        simp only [] at h
        have hhead : ProcReady s.time_elapsed task := g1 task (by rw [htp]; simp)
        obtain ⟨a1, a2, a3, a4, a5, a6, a7, a8, a9, a10, a11⟩ := hhead
        have hrun : ProcRunning s.time_elapsed
            { task with waiting_time := some (task.waiting_time.getD 0 +
                (s.time_elapsed - task.last_preempted.getD 0)) } := by
          refine ⟨a1, a2, by simp, a4, a5, a6, a7, a9, a10, ?_⟩
          show task.waiting_time.getD 0 + (s.time_elapsed - task.last_preempted.getD 0) =
            s.time_elapsed - task.arrival_time - task.runtime.getD 0
          omega
        have := run_one_process_inv h hrun
          (fun p hp => g1 p (by rw [htp]; exact List.mem_cons_of_mem _ hp))
          g2 hterm
        obtain ⟨hi, ht, l, hl⟩ := this
        have ht' : s.time_elapsed ≤ s'.time_elapsed := ht
        have hl' : s'.terminated_tasks = s.terminated_tasks ++ l := hl
        exact ⟨hi, ht', ⟨l, hl'⟩⟩

theorem run_animation_step_dispatch_quantum {fuel : Nat}
    {m : TimeQuantumMethod} {s s' : SimState} {task : Process}
    {rest : List Process}
    (htp : (get_new_tasks s.time_elapsed s.tasks s.new_tasks).1 = task :: rest)
    (harr : task.arrival_time ≤ s.time_elapsed)
    (h : run_animation_step fuel m s = some s') :
    get_time_quantum m (task :: rest) = some s'.time_quantum := by
  rw [run_animation_step] at h
  simp only [] at h
  simp only [htp] at h
  rw [if_neg (not_lt.2 harr)] at h
  rcases hq : get_time_quantum m (task :: rest) with _ | q
  · rw [hq] at h; cases h
  · rw [hq] at h
    simp only [] at h
    have hpq := run_one_process_quantum h
    have : s'.time_quantum = q := hpq
    rw [this]

theorem run_animation_inv {fuel : Nat} {m : TimeQuantumMethod} :
    ∀ {n : Nat} {s s' : SimState},
      run_animation fuel m n s = some s' → SimInv s →
      SimInv s' ∧ s.time_elapsed ≤ s'.time_elapsed ∧
      ∃ l, s'.terminated_tasks = s.terminated_tasks ++ l := by
  intro n
  induction n with
  | zero =>
      intro s s' h hI
      injection h with hh
      subst hh
      exact ⟨hI, le_refl _, ⟨[], (List.append_nil _).symm⟩⟩
  | succ k ih =>
      intro s s' h hI
      rw [run_animation] at h
      rcases hs : run_animation_step fuel m s with _ | s1
      · rw [hs] at h; cases h
      · rw [hs] at h
        obtain ⟨hI1, ht1, l1, hl1⟩ := run_animation_step_inv hs hI
        obtain ⟨hI2, ht2, l2, hl2⟩ := ih h hI1
        exact ⟨hI2, le_trans ht1 ht2,
          ⟨l1 ++ l2, by rw [hl2, hl1, List.append_assoc]⟩⟩

theorem mem_insert_by_arrival {p x : Process} :
    ∀ {l : List Process}, x ∈ insert_by_arrival p l ↔ x = p ∨ x ∈ l := by
  intro l
  induction l with
  | nil => simp [insert_by_arrival]
  | cons q qs ih =>
      by_cases h : q.arrival_time < p.arrival_time
      · simp only [insert_by_arrival, h, if_true, List.mem_cons, ih]
        tauto
      · simp only [insert_by_arrival, h, if_false, List.mem_cons]

theorem mem_sort_by_arrival {x : Process} :
    ∀ {l : List Process}, x ∈ sort_by_arrival l ↔ x ∈ l := by
  intro l
  induction l with
  | nil => simp [sort_by_arrival]
  | cons q qs ih =>
      simp [sort_by_arrival, mem_insert_by_arrival, ih]

theorem finalize_tasks_list_inv {l : List Process}
    (h : ∀ p ∈ l, ProcPending p) : SimInv (finalize_tasks_list l) := by
  refine ⟨?_, ?_, ?_⟩
  · intro p hp
    exact h p (mem_sort_by_arrival.1 hp)
  · intro p hp
    simp [finalize_tasks_list] at hp
  · intro p hp
    simp [finalize_tasks_list] at hp

theorem isqrtGo_sq_le (m : Nat) :
    ∀ (fuel k : Nat), k * k ≤ m → isqrtGo m fuel k * isqrtGo m fuel k ≤ m := by
  intro fuel
  induction fuel with
  | zero => intro k hk; simpa [isqrtGo] using hk
  | succ n ih =>
      intro k hk
      rw [isqrtGo]
      by_cases h : (k + 1) * (k + 1) ≤ m
      · rw [if_pos h]; exact ih (k + 1) h
      · rw [if_neg h]; exact hk

theorem isqrtGo_lt_succ_sq (m : Nat) :
    ∀ (fuel k : Nat), m < (k + fuel + 1) * (k + fuel + 1) →
      m < (isqrtGo m fuel k + 1) * (isqrtGo m fuel k + 1) := by
  intro fuel
  induction fuel with
  | zero => intro k hk; simpa [isqrtGo] using hk
  | succ n ih =>
      intro k hk
      rw [isqrtGo]
      by_cases h : (k + 1) * (k + 1) ≤ m
      · rw [if_pos h]
        refine ih (k + 1) ?_
        have he : k + 1 + n + 1 = k + (n + 1) + 1 := by omega
        rw [he]
        exact hk
      · rw [if_neg h]
        omega

theorem isqrt_spec (m : Nat) :
    isqrt m * isqrt m ≤ m ∧ m < (isqrt m + 1) * (isqrt m + 1) := by
  constructor
  · exact isqrtGo_sq_le m m 0 (by omega)
  · refine isqrtGo_lt_succ_sq m m 0 ?_
    have he : 0 + m + 1 = m + 1 := by omega
    rw [he]
    calc m < m + 1 := by omega
      _ ≤ (m + 1) * (m + 1) := Nat.le_mul_of_pos_left _ (by omega)

theorem roundSqrt_eq_round_sqrt (m : Nat) :
    roundSqrt m = round (Real.sqrt m) := by
  obtain ⟨hle, hlt⟩ := isqrt_spec m
  set a := isqrt m with ha
  have hleR : (a : ℝ) * a ≤ (m : ℝ) := by exact_mod_cast hle
  have hltR : (m : ℝ) < ((a : ℝ) + 1) * ((a : ℝ) + 1) := by exact_mod_cast hlt
  have hsqrt_ge : (a : ℝ) ≤ Real.sqrt m := by
    rw [Real.le_sqrt (by positivity) (by positivity)]
    nlinarith [hleR]
  have hsqrt_lt : Real.sqrt m < (a : ℝ) + 1 := by
    rw [Real.sqrt_lt' (by positivity)]
    nlinarith [hltR]
  rw [round_eq, roundSqrt]
  by_cases h : m ≤ a * a + a
  · have hR : (m : ℝ) ≤ (a : ℝ) * a + a := by exact_mod_cast h
    rw [if_pos h]
    symm
    rw [Int.floor_eq_iff]
    constructor
    · push_cast
      linarith [hsqrt_ge]
    · have hmid : Real.sqrt m < (a : ℝ) + 1 / 2 := by
        rw [Real.sqrt_lt' (by positivity)]
        nlinarith [hR]
      push_cast
      linarith [hmid]
  · have h' : a * a + a + 1 ≤ m := by omega
    have hR : (a : ℝ) * a + a + 1 ≤ (m : ℝ) := by exact_mod_cast h'
    rw [if_neg h]
    symm
    rw [Int.floor_eq_iff]
    constructor
    · have hmid : (a : ℝ) + 1 / 2 ≤ Real.sqrt m := by
        rw [Real.le_sqrt (by positivity) (by positivity)]
        nlinarith [hR]
      push_cast
      linarith [hmid]
    · push_cast
      linarith [hsqrt_lt]

theorem recip_sum_den_ne_zero :
    ∀ {l : List Int}, (∀ b ∈ l, b ≠ 0) → (recip_sum l).2 ≠ 0 := by
  intro l
  induction l with
  | nil => intro _; simp [recip_sum]
  | cons b bs ih =>
      intro h
      have hb : b ≠ 0 := h b (by simp)
      have hbs := ih (fun x hx => h x (List.mem_cons_of_mem _ hx))
      simp only [recip_sum]
      exact mul_ne_zero hbs hb

theorem recip_sum_spec :
    ∀ {l : List Int}, (∀ b ∈ l, b ≠ 0) →
      ((recip_sum l).1 : ℚ) / ((recip_sum l).2 : ℚ) =
        (l.map (fun b : Int => 1 / (b : ℚ))).sum := by
  intro l
  induction l with
  | nil => intro _; simp [recip_sum]
  | cons b bs ih =>
      intro h
      have hb : b ≠ 0 := h b (by simp)
      have hbs : ∀ x ∈ bs, x ≠ 0 := fun x hx => h x (List.mem_cons_of_mem _ hx)
      have hden := recip_sum_den_ne_zero hbs
      have hbQ : (b : ℚ) ≠ 0 := Int.cast_ne_zero.2 hb
      have hdenQ : ((recip_sum bs).2 : ℚ) ≠ 0 := Int.cast_ne_zero.2 hden
      simp only [recip_sum, List.map_cons, List.sum_cons]
      rw [← ih hbs]
      push_cast
      field_simp
      ring

theorem recip_sum_pos :
    ∀ {l : List Int}, (∀ b ∈ l, 0 < b) →
      0 < (recip_sum l).2 ∧ 0 ≤ (recip_sum l).1 ∧
      (l ≠ [] → 0 < (recip_sum l).1) := by
  intro l
  induction l with
  | nil => intro _; simp [recip_sum]
  | cons b bs ih =>
      intro h
      have hb : 0 < b := h b (by simp)
      obtain ⟨h1, h2, _⟩ := ih (fun x hx => h x (List.mem_cons_of_mem _ hx))
      refine ⟨?_, ?_, ?_⟩
      · simp only [recip_sum]; positivity
      · simp only [recip_sum]; positivity
      · intro _; simp only [recip_sum]; positivity

theorem pyRoundRatio_eq_pyRoundQ_of_pos {a b : Int} (hb : 0 < b) :
    pyRoundRatio a b = pyRoundQ ((a : ℚ) / (b : ℚ)) := by
  have hbne : ¬ b < 0 := by omega
  have hbQ : (0 : ℚ) < (b : ℚ) := by exact_mod_cast hb
  have hbQne : (b : ℚ) ≠ 0 := ne_of_gt hbQ
  have hbt : ((b.toNat : ℤ)) = b := Int.toNat_of_nonneg hb.le
  have hfl : ⌊(a : ℚ) / (b : ℚ)⌋ = a / b := by
    have hcast : ((b.toNat : ℕ) : ℚ) = (b : ℚ) := by
      exact_mod_cast congrArg (fun z : ℤ => (z : ℚ)) hbt
    have h := Rat.floor_intCast_div_natCast a b.toNat
    rw [hcast, hbt] at h
    exact h
  have hdiv := Int.ediv_add_emod a b
  have hrem : (a : ℚ) / (b : ℚ) - ((a / b : ℤ) : ℚ) = ((a % b : ℤ) : ℚ) / (b : ℚ) := by
    have hdivQ : (b : ℚ) * ((a / b : ℤ) : ℚ) + ((a % b : ℤ) : ℚ) = (a : ℚ) := by
      exact_mod_cast congrArg (fun z : ℤ => (z : ℚ)) hdiv
    field_simp
    linarith [hdivQ]
  have hr0 : (0 : ℤ) ≤ a % b := Int.emod_nonneg a (ne_of_gt hb)
  have hlt : ((a % b : ℤ) : ℚ) / (b : ℚ) < 1 / 2 ↔ 2 * (a % b) < b := by
    rw [div_lt_iff₀ hbQ]
    constructor
    · intro h
      have : ((2 * (a % b) : ℤ) : ℚ) < (b : ℚ) := by push_cast; linarith
      exact_mod_cast this
    · intro h
      have : ((2 * (a % b) : ℤ) : ℚ) < (b : ℚ) := by exact_mod_cast h
      push_cast at this
      linarith
  have hgt : 1 / 2 < ((a % b : ℤ) : ℚ) / (b : ℚ) ↔ b < 2 * (a % b) := by
    rw [lt_div_iff₀ hbQ]
    constructor
    · intro h
      have : (b : ℚ) < ((2 * (a % b) : ℤ) : ℚ) := by push_cast; linarith
      exact_mod_cast this
    · intro h
      have : (b : ℚ) < ((2 * (a % b) : ℤ) : ℚ) := by exact_mod_cast h
      push_cast at this
      linarith
  unfold pyRoundRatio pyRoundQ
  simp only [if_neg hbne, hfl, hrem]
  by_cases h1 : 2 * (a % b) < b
  · rw [if_pos h1, if_pos (hlt.mpr h1)]
  · rw [if_neg h1, if_neg (fun hc => h1 (hlt.mp hc))]
    by_cases h2 : b < 2 * (a % b)
    · rw [if_pos h2, if_pos (hgt.mpr h2)]
    · rw [if_neg h2, if_neg (fun hc => h2 (hgt.mp hc))]

theorem pyRoundRatio_eq_pyRoundQ {a b : Int} (hb : b ≠ 0) :
    pyRoundRatio a b = pyRoundQ ((a : ℚ) / (b : ℚ)) := by
  rcases lt_or_gt_of_ne hb with hneg | hpos
  · have h1 : pyRoundRatio a b = pyRoundRatio (-a) (-b) := by
      unfold pyRoundRatio
      simp only [if_pos hneg, if_neg (show ¬ (-b) < 0 by omega)]
    rw [h1, pyRoundRatio_eq_pyRoundQ_of_pos (show (0 : ℤ) < -b by omega)]
    congr 1
    push_cast
    rw [neg_div_neg_eq]
  · exact pyRoundRatio_eq_pyRoundQ_of_pos hpos

theorem sum_map_burst_units (l : List Process) :
    (l.map burst_units).sum =
      (((l.map (fun p => p.burst_time)).sum : ℤ) : ℚ) / 10 := by
  induction l with
  | nil => simp
  | cons p ps ih =>
      rw [List.map_cons, List.map_cons, List.sum_cons, List.sum_cons, ih,
        burst_units]
      push_cast
      ring

/-! The claim theorems. -/

/-- C5: for every clock value, admission removes each pending process whose
`arrival_time <= clock` from the (arrival-ordered) pending list, sets
`last_preempted = clock`, `waiting_time = clock - arrival_time`,
`admitted_time = clock`, `runtime = 0`, and appends it to the tail of the
ready queue; pending processes with `arrival_time > clock`, and all other
fields, are left unchanged. -/
theorem claim_C5 (t : Int) (tasks pending : List Process)
    (hs : pending.Pairwise (fun a b => a.arrival_time ≤ b.arrival_time)) :
    get_new_tasks t tasks pending =
      (tasks ++ (pending.filter (fun p => p.arrival_time ≤ t)).map
        (fun p => { p with
          last_preempted := some t
          waiting_time := some (t - p.arrival_time)
          admitted_time := some t
          runtime := some 0 }),
       pending.filter (fun p => ¬ p.arrival_time ≤ t)) := by
  obtain ⟨h1, h2⟩ := sorted_takeWhile_dropWhile t pending hs
  rw [get_new_tasks_eq, h1, h2]
  rfl

/-- C5 witness: admission at clock 0 on the concrete pending list
`[scenP1, scenP2]`. -/
theorem claim_C5_witness :
    ([scenP1, scenP2].Pairwise (fun a b => a.arrival_time ≤ b.arrival_time)) ∧
    get_new_tasks 0 [] [scenP1, scenP2] =
      ([] ++ ([scenP1, scenP2].filter (fun p => p.arrival_time ≤ 0)).map
        (fun p => { p with
          last_preempted := some 0
          waiting_time := some (0 - p.arrival_time)
          admitted_time := some 0
          runtime := some 0 }),
       [scenP1, scenP2].filter (fun p => ¬ p.arrival_time ≤ (0 : Int))) :=
  ⟨by decide, claim_C5 0 [] [scenP1, scenP2] (by decide)⟩

/-- C6: admission is idempotent at a fixed clock value: running
`get_new_tasks` a second time at the same clock on its own output changes
nothing — neither the pending list, nor the ready queue, nor any process
field. -/
theorem claim_C6 (t : Int) (tasks pending : List Process) :
    get_new_tasks t (get_new_tasks t tasks pending).1
      (get_new_tasks t tasks pending).2 = get_new_tasks t tasks pending :=
  get_new_tasks_idem t tasks pending

/-- C7: on a non-empty terminated set, `calculate_metrics` returns the
arithmetic means of `terminated_time`, of
`terminated_time - admitted_time`, and of `waiting_time`; on an empty
terminated set it raises (`none`) rather than returning a value. -/
theorem claim_C7 (l : List Process) (h : l ≠ []) :
    calculate_metrics l = some
      (arithmeticMean (l.map (fun p => ((p.terminated_time.getD 0 : Int) : ℚ))),
       arithmeticMean (l.map
         (fun p => ((p.terminated_time.getD 0 - p.admitted_time.getD 0 : Int) : ℚ))),
       arithmeticMean (l.map (fun p => ((p.waiting_time.getD 0 : Int) : ℚ)))) ∧
    calculate_metrics [] = none := by
  constructor
  · unfold calculate_metrics
    rw [if_neg (by simpa using h)]
    unfold arithmeticMean
    simp [List.length_map]
  · rfl

/-- C7 witness: the metrics of the one-element terminated set `[wTerm]`. -/
theorem claim_C7_witness :
    ([wTerm] : List Process) ≠ [] ∧
    (calculate_metrics [wTerm] = some
      (arithmeticMean ([wTerm].map (fun p => ((p.terminated_time.getD 0 : Int) : ℚ))),
       arithmeticMean ([wTerm].map
         (fun p => ((p.terminated_time.getD 0 - p.admitted_time.getD 0 : Int) : ℚ))),
       arithmeticMean ([wTerm].map (fun p => ((p.waiting_time.getD 0 : Int) : ℚ)))) ∧
     calculate_metrics [] = none) :=
  ⟨by decide, claim_C7 [wTerm] (by decide)⟩

/-- C8 (amended): process submission splits the input on `';'` and parses the
*first three* fields as integers — fields beyond the third are ignored, not
rejected.  A submission with fewer than three fields or with a non-numeric
field among the first three is rejected with an error, and a rejected
submission leaves the task list unchanged. -/
theorem claim_C8 (tasks : List Process) (text : List Char) :
    ((add_task tasks text).2 = true → (add_task tasks text).1 = tasks) ∧
    (∀ p : Process, make_task text = some p ↔
      ∃ a b c rest, splitSemi text = a :: b :: c :: rest ∧
        ∃ pid av bt, parseInt a = some pid ∧ parseInt b = some av ∧
          parseInt c = some bt ∧
          p = { pid := pid, burst_time := 10 * bt, arrival_time := 10 * av }) ∧
    (∀ p : Process, make_task (stripChars text) = some p →
      (stripChars text).length > 0 →
      add_task tasks text = (tasks ++ [p], false)) := by
  refine ⟨?_, ?_, ?_⟩
  · intro h
    unfold add_task at h ⊢
    by_cases hl : (stripChars text).length > 0
    · rw [if_pos hl] at h ⊢
      rcases hm : make_task (stripChars text) with _ | p
      · rfl
      · rw [hm] at h
        simp at h
    · rw [if_neg hl]
  · intro p
    constructor
    · intro h
      rcases hsp : splitSemi text with _ | ⟨a, _ | ⟨b, _ | ⟨c, rest⟩⟩⟩
      · simp only [make_task, hsp] at h; cases h
      · simp only [make_task, hsp] at h; cases h
      · simp only [make_task, hsp] at h; cases h
      · simp only [make_task, hsp] at h
        rcases hpa : parseInt a with _ | pid <;> rw [hpa] at h
        · cases h
        rcases hpb : parseInt b with _ | av <;> rw [hpb] at h
        · cases h
        rcases hpc : parseInt c with _ | bt <;> rw [hpc] at h
        · cases h
        injection h with hh
        exact ⟨a, b, c, rest, rfl, pid, av, bt, hpa, hpb, hpc, hh.symm⟩
    · rintro ⟨a, b, c, rest, hsp, pid, av, bt, hpa, hpb, hpc, rfl⟩
      simp only [make_task, hsp, hpa, hpb, hpc]
  · intro p hm hl
    unfold add_task
    rw [if_pos hl, hm]

/-- C8 counterexample: the four-field input `"1 ; 2 ; 3 ; 4"` has the wrong
field count but is *not* rejected — `make_task` accepts it (extra fields
ignored), contradicting the claim that every wrong-field-count input is
rejected with an error. -/
theorem claim_C8_counterexample :
    (splitSemi c8input).length = 4 ∧
    make_task c8input =
      some { pid := 1, burst_time := 30, arrival_time := 20 } := by
  constructor
  · decide
  · decide

/-- C8 witness: the malformed input `"1;x;3"` is rejected and leaves an empty
task list unchanged. -/
theorem claim_C8_witness :
    (add_task [] c8bad).2 = true ∧ (add_task [] c8bad).1 = [] :=
  ⟨by decide, (claim_C8 [] c8bad).1 (by decide)⟩

/-- C1 (amended): at every dispatch the scheduler computes the quantum by
applying the selected strategy to the ready queue *before* the pop — i.e.
including the process about to be dispatched — and then pops the head; the
quantum used for the dispatch (recorded in `time_quantum`) equals the
strategy applied to `task :: rest`, not to `rest` alone. -/
theorem claim_C1 {fuel : Nat} {m : TimeQuantumMethod} {s s' : SimState}
    {task : Process} {rest : List Process}
    (hready : (get_new_tasks s.time_elapsed s.tasks s.new_tasks).1 = task :: rest)
    (harr : task.arrival_time ≤ s.time_elapsed)
    (h : run_animation_step fuel m s = some s') :
    get_time_quantum m (task :: rest) = some s'.time_quantum :=
  run_animation_step_dispatch_quantum hready harr h

/-- C1 counterexample: dispatching `cexA` (burst 5.0) with `cexB`
(burst 3.0) behind it under the Arithmetic strategy uses quantum 4.0
(40 ticks) — the mean over the queue *including* the popped process — while
the strategy applied to the remaining ready queue after the pop gives 3.0
(30 ticks).  The claim's "quantum equals the strategy applied to the
remaining ready processes after the pop" is false at this dispatch. -/
theorem claim_C1_counterexample :
    (run_animation_step 100 TimeQuantumMethod.Arithmetic cexState).map
      (fun s => s.time_quantum) = some 40 ∧
    get_time_quantum TimeQuantumMethod.Arithmetic [cexB] = some 30 ∧
    (40 : Int) ≠ 30 :=
  ⟨by decide, by decide, by decide⟩

/-- C1 witness: the amended claim at the concrete dispatch of `cexA`. -/
theorem claim_C1_witness :
    (get_new_tasks cexState.time_elapsed cexState.tasks cexState.new_tasks).1 =
      [cexA, cexB] ∧
    cexA.arrival_time ≤ cexState.time_elapsed ∧
    get_time_quantum TimeQuantumMethod.Arithmetic [cexA, cexB] = some 40 :=
  ⟨by decide, by decide,
    claim_C1 (by decide) (by decide)
      (show run_animation_step 100 TimeQuantumMethod.Arithmetic cexState = some
        { new_tasks := []
          tasks := [{ pid := 2, burst_time := 30, arrival_time := 0,
                      admitted_time := some 0, last_preempted := some 0,
                      terminated_time := none, waiting_time := some 0,
                      runtime := some 0 },
                    { pid := 1, burst_time := 50, arrival_time := 0,
                      admitted_time := some 0, last_preempted := some 40,
                      terminated_time := none, waiting_time := some 0,
                      runtime := some 40 }]
          terminated_tasks := []
          time_elapsed := 40
          time_quantum := 40 } by decide)⟩

/-- C2: for P1 (arrival 0, burst 5.0 = 50 ticks) and P2 (arrival 1.0 =
10 ticks, burst 3.0 = 30 ticks) under the Arithmetic strategy: at clock 0
only P1 is ready and the quantum is 5.0 (50 ticks); P2 is admitted at clock
1.0 (`admitted_time = 10` ticks) while P1 is running and does not preempt it
(P1 runs to completion, terminating at clock 5.0); P2 is dispatched next and
terminates at clock 8.0. -/
theorem claim_C2 :
    get_new_tasks 0 [] [scenP1, scenP2] =
      ([{ pid := 1,
          burst_time := 50,
          arrival_time := 0,
          admitted_time := some 0,
          last_preempted := some 0,
          terminated_time := none,
          waiting_time := some 0,
          runtime := some 0 }], [scenP2]) ∧
    get_time_quantum TimeQuantumMethod.Arithmetic
      [{ pid := 1,
         burst_time := 50,
         arrival_time := 0,
         admitted_time := some 0,
         last_preempted := some 0,
         terminated_time := none,
         waiting_time := some 0,
         runtime := some 0 }] = some 50 ∧
    run_animation 100 TimeQuantumMethod.Arithmetic 1
      (finalize_tasks_list [scenP1, scenP2]) = some
      { new_tasks := []
        tasks := [{ pid := 2, burst_time := 30, arrival_time := 10,
                    admitted_time := some 10, last_preempted := some 10,
                    terminated_time := none, waiting_time := some 0,
                    runtime := some 0 }]
        terminated_tasks := [{ pid := 1, burst_time := 50, arrival_time := 0,
                               admitted_time := some 0, last_preempted := some 50,
                               terminated_time := some 50, waiting_time := some 0,
                               runtime := some 50 }]
        time_elapsed := 50
        time_quantum := 50 } ∧
    run_animation 100 TimeQuantumMethod.Arithmetic 2
      (finalize_tasks_list [scenP1, scenP2]) = some
      { new_tasks := []
        tasks := []
        terminated_tasks := [{ pid := 1, burst_time := 50, arrival_time := 0,
                               admitted_time := some 0, last_preempted := some 50,
                               terminated_time := some 50, waiting_time := some 0,
                               runtime := some 50 },
                             { pid := 2, burst_time := 30, arrival_time := 10,
                               admitted_time := some 10, last_preempted := some 80,
                               terminated_time := some 80, waiting_time := some 40,
                               runtime := some 30 }]
        time_elapsed := 80
        time_quantum := 30 } :=
  ⟨by decide, by decide, by decide, by decide⟩

/-- C3: in any run started from submitted (pending-shaped) processes with
nonnegative burst times, every process in the ready queue satisfies
`runtime <= burst_time`; every terminated process satisfies
`runtime == burst_time` and
`terminated_time >= admitted_time >= arrival_time` with `terminated_time`
set; and any further scheduler step only appends to the terminated set,
leaving the recorded processes unchanged. -/
theorem claim_C3 {fuel n : Nat} {m : TimeQuantumMethod} {l : List Process}
    {s' : SimState} (hl : ∀ p ∈ l, ProcPending p)
    (h : run_animation fuel m n (finalize_tasks_list l) = some s') :
    (∀ p ∈ s'.tasks, p.runtime.getD 0 ≤ p.burst_time) ∧
    (∀ p ∈ s'.terminated_tasks,
      p.runtime = some p.burst_time ∧ p.terminated_time.isSome ∧
      p.arrival_time ≤ p.admitted_time.getD 0 ∧
      p.admitted_time.getD 0 ≤ p.terminated_time.getD 0) ∧
    (∀ (fuel2 : Nat) (s'' : SimState),
      run_animation_step fuel2 m s' = some s'' →
      ∃ l2, s''.terminated_tasks = s'.terminated_tasks ++ l2) := by
  obtain ⟨⟨hp, hr, ht⟩, -, -⟩ := run_animation_inv h (finalize_tasks_list_inv hl)
  refine ⟨?_, ?_, ?_⟩
  · intro p hp2
    obtain ⟨-, -, -, -, -, -, -, -, -, h10, -⟩ := hr p hp2
    exact h10
  · intro p hp2
    obtain ⟨b1, b2, b3, b4, b5, b6, b7, b8⟩ := ht p hp2
    exact ⟨b5, b4, b6, b7⟩
  · intro fuel2 s'' hstep
    obtain ⟨-, -, hap⟩ := run_animation_step_inv hstep ⟨hp, hr, ht⟩
    exact hap

/-- C3 witness: one step of the run of the single process `wPend`. -/
theorem claim_C3_witness :
    (∀ p ∈ [wPend], ProcPending p) ∧
    run_animation 100 TimeQuantumMethod.Arithmetic 1
      (finalize_tasks_list [wPend]) = some
      { new_tasks := [], tasks := [], terminated_tasks := [wTerm],
        time_elapsed := 10, time_quantum := 10 } ∧
    ((∀ p ∈ ([] : List Process), p.runtime.getD 0 ≤ p.burst_time) ∧
     (∀ p ∈ [wTerm],
        p.runtime = some p.burst_time ∧ p.terminated_time.isSome ∧
        p.arrival_time ≤ p.admitted_time.getD 0 ∧
        p.admitted_time.getD 0 ≤ p.terminated_time.getD 0) ∧
     (∀ (fuel2 : Nat) (s'' : SimState),
        run_animation_step fuel2 TimeQuantumMethod.Arithmetic
          { new_tasks := [], tasks := [], terminated_tasks := [wTerm],
            time_elapsed := 10, time_quantum := 10 } = some s'' →
        ∃ l2, s''.terminated_tasks = [wTerm] ++ l2)) :=
  have hl : ∀ p ∈ [wPend], ProcPending p := by decide
  have hrun : run_animation 100 TimeQuantumMethod.Arithmetic 1
      (finalize_tasks_list [wPend]) = some
      { new_tasks := [], tasks := [], terminated_tasks := [wTerm],
        time_elapsed := 10, time_quantum := 10 } := by decide
  ⟨hl, hrun, claim_C3 hl hrun⟩

/-- C10: in any run started from submitted (pending-shaped) processes, every
terminated process's final waiting time satisfies
`waiting_time = terminated_time - arrival_time - burst_time`: the waiting
time set at admission plus the increments added at each dispatch exactly
account for all time between arrival and termination not spent executing. -/
theorem claim_C10 {fuel n : Nat} {m : TimeQuantumMethod} {l : List Process}
    {s' : SimState} (hl : ∀ p ∈ l, ProcPending p)
    (h : run_animation fuel m n (finalize_tasks_list l) = some s') :
    ∀ p ∈ s'.terminated_tasks,
      p.waiting_time =
        some (p.terminated_time.getD 0 - p.arrival_time - p.burst_time) := by
  obtain ⟨⟨-, -, ht⟩, -, -⟩ := run_animation_inv h (finalize_tasks_list_inv hl)
  intro p hp
  obtain ⟨b1, b2, b3, b4, b5, b6, b7, b8⟩ := ht p hp
  obtain ⟨w, hw⟩ := Option.isSome_iff_exists.1 b3
  rw [hw]
  rw [hw] at b8
  simp only [Option.getD_some] at b8
  rw [b8]

/-- C10 witness: the waiting-time accounting at the end of the two-process
scenario run (P2 waited 4.0 units: terminated 8.0 - arrival 1.0 -
burst 3.0). -/
theorem claim_C10_witness :
    (∀ p ∈ [scenP1, scenP2], ProcPending p) ∧
    run_animation 100 TimeQuantumMethod.Arithmetic 2
      (finalize_tasks_list [scenP1, scenP2]) = some
      { new_tasks := []
        tasks := []
        terminated_tasks := [{ pid := 1,
                               burst_time := 50,
                               arrival_time := 0,
                               admitted_time := some 0,
                               last_preempted := some 50,
                               terminated_time := some 50,
                               waiting_time := some 0,
                               runtime := some 50 },
                             { pid := 2,
                               burst_time := 30,
                               arrival_time := 10,
                               admitted_time := some 10,
                               last_preempted := some 80,
                               terminated_time := some 80,
                               waiting_time := some 40,
                               runtime := some 30 }]
        time_elapsed := 80
        time_quantum := 30 } ∧
    (∀ p ∈ [({ pid := 1,
               burst_time := 50,
               arrival_time := 0,
               admitted_time := some 0,
               last_preempted := some 50,
               terminated_time := some 50,
               waiting_time := some 0,
               runtime := some 50 } : Process),
            ({ pid := 2,
               burst_time := 30,
               arrival_time := 10,
               admitted_time := some 10,
               last_preempted := some 80,
               terminated_time := some 80,
               waiting_time := some 40,
               runtime := some 30 } : Process)],
      p.waiting_time =
        some (p.terminated_time.getD 0 - p.arrival_time - p.burst_time)) :=
  have hl : ∀ p ∈ [scenP1, scenP2], ProcPending p := by decide
  have hrun : run_animation 100 TimeQuantumMethod.Arithmetic 2
      (finalize_tasks_list [scenP1, scenP2]) = some
      { new_tasks := []
        tasks := []
        terminated_tasks := [{ pid := 1,
                               burst_time := 50,
                               arrival_time := 0,
                               admitted_time := some 0,
                               last_preempted := some 50,
                               terminated_time := some 50,
                               waiting_time := some 0,
                               runtime := some 50 },
                             { pid := 2,
                               burst_time := 30,
                               arrival_time := 10,
                               admitted_time := some 10,
                               last_preempted := some 80,
                               terminated_time := some 80,
                               waiting_time := some 40,
                               runtime := some 30 }]
        time_elapsed := 80
        time_quantum := 30 } := by decide
  ⟨hl, hrun, claim_C10 hl hrun⟩

theorem run_animation_step_idle {fuel : Nat} {m : TimeQuantumMethod}
    {s : SimState}
    (htp : (get_new_tasks s.time_elapsed s.tasks s.new_tasks).1 = []) :
    run_animation_step fuel m s = some
      { new_tasks := (get_new_tasks s.time_elapsed s.tasks s.new_tasks).2
        tasks := []
        terminated_tasks := s.terminated_tasks
        time_elapsed := s.time_elapsed + 1
        time_quantum := s.time_quantum } := by
  have hidem := get_new_tasks_idem s.time_elapsed s.tasks s.new_tasks
  rw [htp] at hidem
  rw [run_animation_step]
  simp only []
  simp only [htp, hidem]

theorem mem_get_new_tasks_fst_burst {t : Int} {tasks pending : List Process}
    {p : Process} (hp : p ∈ (get_new_tasks t tasks pending).1) :
    p ∈ tasks ∨ ∃ q ∈ pending, p.burst_time = q.burst_time := by
  rw [get_new_tasks_eq] at hp
  rcases List.mem_append.1 hp with h | h
  · exact Or.inl h
  · obtain ⟨q, hq, rfl⟩ := List.mem_map.1 h
    exact Or.inr ⟨q, (List.takeWhile_sublist _).subset hq, rfl⟩

theorem get_time_quantum_isSome {m : TimeQuantumMethod} {task : Process}
    {rest : List Process} (hb : ∀ p ∈ task :: rest, 0 < p.burst_time) :
    (get_time_quantum m (task :: rest)).isSome := by
  cases m with
  | Arithmetic => simp [get_time_quantum]
  | Geometric =>
      have hsum : 0 < ((task :: rest).map (fun p => p.burst_time)).sum := by
        refine List.sum_pos _ ?_ (by simp)
        intro x hx
        obtain ⟨p, hp, rfl⟩ := List.mem_map.1 hx
        exact hb p hp
      simp only [get_time_quantum]
      rw [if_neg (by omega)]
      simp
  | Harmonic =>
      have hne0 : ∀ b ∈ (task :: rest).map (fun p => p.burst_time), 0 < b := by
        intro x hx
        obtain ⟨p, hp, rfl⟩ := List.mem_map.1 hx
        exact hb p hp
      obtain ⟨hden, hnn, hnum⟩ := recip_sum_pos hne0
      have hnumpos : 0 < (recip_sum ((task :: rest).map (fun p => p.burst_time))).1 :=
        hnum (by simp)
      simp only [get_time_quantum]
      rw [if_neg (by simp)]
      rw [if_neg ?hany]
      case hany =>
        intro hc
        obtain ⟨p, hp, hc2⟩ := List.any_eq_true.1 hc
        have := hb p hp
        simp only [decide_eq_true_eq] at hc2
        omega
      rw [if_neg (by omega)]
      simp

/-- C9: the mean-based quantum strategies fail on an empty ready queue, and
that failure is unreachable in the scheduler loop: whenever the post-
admission ready queue is empty the step stays idle and succeeds without
consulting the strategy (the result does not depend on the selected method),
and whenever the strategy is consulted the queue is non-empty (`task ::
rest`) and — under positive burst times — the strategy succeeds. -/
theorem claim_C9 (fuel : Nat) (m : TimeQuantumMethod) (s : SimState)
    (hb : ∀ p ∈ s.tasks ++ s.new_tasks, 0 < p.burst_time) :
    (get_time_quantum TimeQuantumMethod.Arithmetic [] = none ∧
     get_time_quantum TimeQuantumMethod.Harmonic [] = none) ∧
    ((get_new_tasks s.time_elapsed s.tasks s.new_tasks).1 = [] →
      run_animation_step fuel m s = some
        { new_tasks := (get_new_tasks s.time_elapsed s.tasks s.new_tasks).2
          tasks := []
          terminated_tasks := s.terminated_tasks
          time_elapsed := s.time_elapsed + 1
          time_quantum := s.time_quantum }) ∧
    (∀ (task : Process) (rest : List Process),
      (get_new_tasks s.time_elapsed s.tasks s.new_tasks).1 = task :: rest →
      (get_time_quantum m (task :: rest)).isSome) := by
  refine ⟨⟨rfl, rfl⟩, ?_, ?_⟩
  · intro htp
    exact run_animation_step_idle htp
  · intro task rest htp
    refine get_time_quantum_isSome ?_
    intro p hp
    have hp' : p ∈ (get_new_tasks s.time_elapsed s.tasks s.new_tasks).1 := by
      rw [htp]; exact hp
    rcases mem_get_new_tasks_fst_burst hp' with h | ⟨q, hq, he⟩
    · exact hb p (List.mem_append.2 (Or.inl h))
    · rw [he]
      exact hb q (List.mem_append.2 (Or.inr hq))

/-- C9 witness: the strategy totality at the concrete state `cexState`. -/
theorem claim_C9_witness :
    (∀ p ∈ cexState.tasks ++ cexState.new_tasks, 0 < p.burst_time) ∧
    ((get_time_quantum TimeQuantumMethod.Arithmetic [] = none ∧
      get_time_quantum TimeQuantumMethod.Harmonic [] = none) ∧
     ((get_new_tasks cexState.time_elapsed cexState.tasks cexState.new_tasks).1 = [] →
       run_animation_step 5 TimeQuantumMethod.Harmonic cexState = some
         { new_tasks := (get_new_tasks cexState.time_elapsed cexState.tasks
             cexState.new_tasks).2
           tasks := []
           terminated_tasks := cexState.terminated_tasks
           time_elapsed := cexState.time_elapsed + 1
           time_quantum := cexState.time_quantum }) ∧
     (∀ (task : Process) (rest : List Process),
       (get_new_tasks cexState.time_elapsed cexState.tasks cexState.new_tasks).1 =
         task :: rest →
       (get_time_quantum TimeQuantumMethod.Harmonic (task :: rest)).isSome)) :=
  have hb : ∀ p ∈ cexState.tasks ++ cexState.new_tasks, 0 < p.burst_time := by
    decide
  ⟨hb, claim_C9 5 TimeQuantumMethod.Harmonic cexState hb⟩

theorem sum_recip_burst_units (ts : List Process) :
    (ts.map (fun p => 1 / burst_units p)).sum =
      10 * (ts.map (fun p => 1 / (p.burst_time : ℚ))).sum := by
  induction ts with
  | nil => simp
  | cons p ps ih =>
      rw [List.map_cons, List.map_cons, List.sum_cons, List.sum_cons, ih,
        burst_units, one_div_div]
      ring

/-- C4: for every non-empty ready queue of positive burst times the quantum
is: under Arithmetic the arithmetic mean, under Geometric the square root of
the *sum* (not the geometric mean), under Harmonic the reciprocal of the
mean of the reciprocals — each rounded to one decimal place (in ticks: the
value in units times 10, rounded to the nearest integer).  In particular for
burst times 4.0, 6.0, 8.0 units: Arithmetic 6.0 (60 ticks), Geometric
`round(sqrt 18, 1) = 4.2` (42 ticks), Harmonic 5.5 (55 ticks). -/
theorem claim_C4 (ts : List Process) (hne : ts ≠ [])
    (hb : ∀ p ∈ ts, 0 < p.burst_time) :
    get_time_quantum TimeQuantumMethod.Arithmetic ts =
      some (pyRoundQ (10 * arithmeticMean (ts.map burst_units))) ∧
    get_time_quantum TimeQuantumMethod.Geometric ts =
      some (round ((10 : ℝ) * Real.sqrt (((ts.map burst_units).sum : ℚ) : ℝ))) ∧
    get_time_quantum TimeQuantumMethod.Harmonic ts =
      some (pyRoundQ (10 * harmonicSpecValue (ts.map burst_units))) ∧
    get_time_quantum TimeQuantumMethod.Arithmetic [q4, q6, q8] = some 60 ∧
    get_time_quantum TimeQuantumMethod.Geometric [q4, q6, q8] = some 42 ∧
    get_time_quantum TimeQuantumMethod.Harmonic [q4, q6, q8] = some 55 := by
  have hlen0 : ts.length ≠ 0 := fun hc => hne (List.length_eq_zero.1 hc)
  have hlenZ : (ts.length : ℤ) ≠ 0 := by exact_mod_cast hlen0
  have hlenQ : ((ts.length : ℕ) : ℚ) ≠ 0 := by exact_mod_cast hlen0
  have hEmpty : ¬ (ts.isEmpty = true) := by
    simpa [List.isEmpty_iff] using hne
  refine ⟨?_, ?_, ?_, by decide, by decide, by decide⟩
  · -- Arithmetic: mean of the burst times, rounded
    simp only [get_time_quantum]
    rw [if_neg hEmpty]
    congr 1
    rw [pyRoundRatio_eq_pyRoundQ hlenZ]
    congr 1
    unfold arithmeticMean
    rw [sum_map_burst_units, List.length_map]
    rw [show (((ts.length : ℤ)) : ℚ) = ((ts.length : ℕ) : ℚ) by push_cast; ring]
    generalize (((ts.map (fun p => p.burst_time)).sum : ℤ) : ℚ) = X
    field_simp
    ring
  · -- Geometric: square root of the sum, rounded
    have hSpos : 0 < (ts.map (fun p => p.burst_time)).sum := by
      refine List.sum_pos _ ?_ ?_
      · intro x hx
        obtain ⟨p, hp, rfl⟩ := List.mem_map.1 hx
        exact hb p hp
      · simpa using hne
    simp only [get_time_quantum]
    rw [if_neg (by omega)]
    congr 1
    rw [roundSqrt_eq_round_sqrt]
    congr 1
    have hcast : (((10 * (ts.map (fun p => p.burst_time)).sum).toNat : ℕ) : ℝ) =
        10 * (((ts.map (fun p => p.burst_time)).sum : ℤ) : ℝ) := by
      have h1 : ((10 * (ts.map (fun p => p.burst_time)).sum).toNat : ℤ) =
          10 * (ts.map (fun p => p.burst_time)).sum :=
        Int.toNat_of_nonneg (by omega)
      exact_mod_cast congrArg (fun z : ℤ => (z : ℝ)) h1
    rw [hcast]
    have hq : (((ts.map burst_units).sum : ℚ) : ℝ) =
        (((ts.map (fun p => p.burst_time)).sum : ℤ) : ℝ) / 10 := by
      rw [sum_map_burst_units]
      generalize (ts.map (fun p => p.burst_time)).sum = X
      push_cast
      ring
    rw [hq]
    have h100 : Real.sqrt 100 = 10 := by
      rw [show (100 : ℝ) = 10 ^ 2 by norm_num]
      exact Real.sqrt_sq (by norm_num)
    calc Real.sqrt (10 * (((ts.map (fun p => p.burst_time)).sum : ℤ) : ℝ))
        = Real.sqrt (100 * ((((ts.map (fun p => p.burst_time)).sum : ℤ) : ℝ) / 10)) := by
          congr 1
          ring
      _ = 10 * Real.sqrt ((((ts.map (fun p => p.burst_time)).sum : ℤ) : ℝ) / 10) := by
          rw [Real.sqrt_mul (by norm_num), h100]
  · -- Harmonic: reciprocal of the mean of the reciprocals, rounded
    have hne0 : ∀ b ∈ ts.map (fun p => p.burst_time), 0 < b := by
      intro x hx
      obtain ⟨p, hp, rfl⟩ := List.mem_map.1 hx
      exact hb p hp
    obtain ⟨hdpos, hnn, hnum⟩ := recip_sum_pos hne0
    have hnpos : 0 < (recip_sum (ts.map (fun p => p.burst_time))).1 :=
      hnum (by simpa using hne)
    have hbne : ∀ b ∈ ts.map (fun p => p.burst_time), b ≠ 0 :=
      fun b hb2 => ne_of_gt (hne0 b hb2)
    have hspec := recip_sum_spec hbne
    rw [List.map_map] at hspec
    simp only [get_time_quantum]
    rw [if_neg hEmpty]
    rw [if_neg ?hany]
    case hany =>
      intro hc
      obtain ⟨p, hp, hc2⟩ := List.any_eq_true.1 hc
      have := hb p hp
      simp only [decide_eq_true_eq] at hc2
      omega
    rw [if_neg (ne_of_gt hnpos)]
    congr 1
    rw [pyRoundRatio_eq_pyRoundQ (ne_of_gt hnpos)]
    congr 1
    unfold harmonicSpecValue arithmeticMean
    rw [List.map_map]
    have hcomp : (fun x => 1 / x) ∘ burst_units = fun p => 1 / burst_units p := rfl
    rw [hcomp, sum_recip_burst_units, List.length_map]
    have hsum : (ts.map (fun p => 1 / (p.burst_time : ℚ))).sum =
        ((recip_sum (ts.map (fun p => p.burst_time))).1 : ℚ) /
          ((recip_sum (ts.map (fun p => p.burst_time))).2 : ℚ) := by
      rw [hspec]
      rfl
    rw [hsum]
    have hnQ : ((recip_sum (ts.map (fun p => p.burst_time))).1 : ℚ) ≠ 0 := by
      exact_mod_cast ne_of_gt hnpos
    have hdQ : ((recip_sum (ts.map (fun p => p.burst_time))).2 : ℚ) ≠ 0 := by
      exact_mod_cast ne_of_gt hdpos
    push_cast
    field_simp
    ring

/-- C4 witness: the three strategies at the concrete ready queue with burst
times 4.0, 6.0, 8.0 units. -/
theorem claim_C4_witness :
    ([q4, q6, q8] : List Process) ≠ [] ∧
    (∀ p ∈ [q4, q6, q8], 0 < p.burst_time) ∧
    (get_time_quantum TimeQuantumMethod.Arithmetic [q4, q6, q8] =
      some (pyRoundQ (10 * arithmeticMean ([q4, q6, q8].map burst_units))) ∧
     get_time_quantum TimeQuantumMethod.Geometric [q4, q6, q8] =
      some (round ((10 : ℝ) *
        Real.sqrt ((([q4, q6, q8].map burst_units).sum : ℚ) : ℝ))) ∧
     get_time_quantum TimeQuantumMethod.Harmonic [q4, q6, q8] =
      some (pyRoundQ (10 * harmonicSpecValue ([q4, q6, q8].map burst_units))) ∧
     get_time_quantum TimeQuantumMethod.Arithmetic [q4, q6, q8] = some 60 ∧
     get_time_quantum TimeQuantumMethod.Geometric [q4, q6, q8] = some 42 ∧
     get_time_quantum TimeQuantumMethod.Harmonic [q4, q6, q8] = some 55) :=
  ⟨by decide, by decide, claim_C4 [q4, q6, q8] (by decide) (by decide)⟩
